import Mathlib

/-!
# Verification of the titan-hunt core rules engine

Shallow embedding of the `titan-hunt-core` Rust crate (files `hex.rs`,
`rules.rs`, `movement.rs`) and proofs of the specification claims about it.

Machine integers (`i32`, `u32`) are modelled as `Int`/`Nat` (no overflow is
reachable in the claims considered), Rust `HashMap`s as association lists,
`Vec` as `List`, and `Result`/`Option` as `Except`/`Option`.  Floating-point
computations (`direction_to`, `hex_round`) are modelled exactly over `ℝ`
respectively `ℚ`; the concrete inputs used in theorems about them are far
from rounding boundaries, so the idealised model agrees with `f64`.
-/

namespace TitanHunt

/-! ## hex.rs : coordinates and facings -/

/-- Axial hex coordinate `(q, r)` (`HexCoord` in `hex.rs`). -/
structure HexCoord where
  q : Int
  r : Int
deriving DecidableEq

/-- Cube coordinate (`CubeCoord` in `hex.rs`). -/
structure CubeCoord where
  x : Int
  y : Int
  z : Int
deriving DecidableEq

/-- Facing direction (`Facing` in `hex.rs`), six discrete directions. -/
inductive Facing where
  | East
  | Northeast
  | Northwest
  | West
  | Southwest
  | Southeast
deriving DecidableEq

/-- `Facing::index`: the `0..5` discriminant. -/
def Facing.index : Facing → Nat
  | .East => 0
  | .Northeast => 1
  | .Northwest => 2
  | .West => 3
  | .Southwest => 4
  | .Southeast => 5

/-- `Facing::from_index`. -/
def Facing.from_index : Nat → Option Facing
  | 0 => some .East
  | 1 => some .Northeast
  | 2 => some .Northwest
  | 3 => some .West
  | 4 => some .Southwest
  | 5 => some .Southeast
  | _ => none

/-- `Facing::opposite`. -/
def Facing.opposite : Facing → Facing
  | .East => .West
  | .Northeast => .Southwest
  | .Northwest => .Southeast
  | .West => .East
  | .Southwest => .Northeast
  | .Southeast => .Northwest

/-- `AXIAL_DIRECTIONS`: direction offsets, order E, NE, NW, W, SW, SE. -/
def AXIAL_DIRECTIONS : List (Int × Int) :=
  [(1, 0), (1, -1), (0, -1), (-1, 0), (-1, 1), (0, 1)]

namespace HexCoord

/-- `HexCoord::new`. -/
def new (q r : Int) : HexCoord := ⟨q, r⟩

/-- `HexCoord::origin`. -/
def origin : HexCoord := ⟨0, 0⟩

/-- `HexCoord::to_cube`. -/
def to_cube (c : HexCoord) : CubeCoord :=
  { x := c.q, z := c.r, y := -c.q - c.r }

/-- `HexCoord::neighbors`: the six neighbours, order E, NE, NW, W, SW, SE. -/
def neighbors (c : HexCoord) : List HexCoord :=
  [ ⟨c.q + 1, c.r⟩
  , ⟨c.q + 1, c.r - 1⟩
  , ⟨c.q, c.r - 1⟩
  , ⟨c.q - 1, c.r⟩
  , ⟨c.q - 1, c.r + 1⟩
  , ⟨c.q, c.r + 1⟩ ]

/-- `HexCoord::neighbor`: neighbour in a given facing, via `AXIAL_DIRECTIONS`. -/
def neighbor (c : HexCoord) (facing : Facing) : HexCoord :=
  let d := AXIAL_DIRECTIONS.getD facing.index (0, 0)
  ⟨c.q + d.1, c.r + d.2⟩

/-- `HexCoord::distance_to`: half the cube Manhattan distance. -/
def distance_to (c other : HexCoord) : Nat :=
  let a := c.to_cube
  let b := other.to_cube
  ((a.x - b.x).natAbs + (a.y - b.y).natAbs + (a.z - b.z).natAbs) / 2

end HexCoord

/-- `CubeCoord::to_axial`. -/
def CubeCoord.to_axial (c : CubeCoord) : HexCoord := ⟨c.x, c.z⟩

/-! ### Real-valued model of `HexCoord::direction_to`

`direction_to` computes `(dr as f64).atan2(dq as f64)` and rounds the angle to
one of six sectors.  We model the `f64` computation exactly over `ℝ`; the
inputs appearing in the theorems below give sector values at distance ≥ 1/4
from the sector boundaries, far beyond any `f64` rounding error, so the real
model and the floating-point code select the same sector. -/

open Classical in
/-- `as i32` on a float: truncation toward zero. -/
noncomputable def rustTruncR (x : ℝ) : Int :=
  if 0 ≤ x then ⌊x⌋ else ⌈x⌉

open Classical in
/-- Rust `%` on floats: remainder with truncated quotient. -/
noncomputable def rustRemR (a b : ℝ) : ℝ :=
  a - b * (rustTruncR (a / b) : ℝ)

open Classical in
/-- `f64::atan2(y, x)` over `ℝ` (for the non-negative-zero inputs that occur
from integer deltas). -/
noncomputable def atan2R (y x : ℝ) : ℝ :=
  if 0 < x then Real.arctan (y / x)
  else if x < 0 then
    (if 0 ≤ y then Real.arctan (y / x) + Real.pi else Real.arctan (y / x) - Real.pi)
  else
    (if 0 < y then Real.pi / 2 else if y < 0 then -(Real.pi / 2) else 0)

open Classical in
/-- `HexCoord::direction_to`: `None` for equal hexes, otherwise the facing
whose sector contains the angle `atan2(dr, dq)` of the raw axial delta
(`dq = target.q - c.q`, `dr = target.r - c.r`, the source's `let` bindings
inlined). -/
noncomputable def HexCoord.direction_to (c target : HexCoord) : Option Facing :=
  if c = target then none
  else
    Facing.from_index
      ((rustTruncR (rustRemR (atan2R ((target.r - c.r : Int) : ℝ) ((target.q - c.q : Int) : ℝ)
          + 2 * Real.pi) (2 * Real.pi) / (Real.pi / 3) + 1 / 2)).emod 6).toNat

/-! ### Rational model of `hex_round` -/

/-- `f64::round`: round half away from zero, modelled on `ℚ`. -/
def rustRound (x : ℚ) : Int :=
  if 0 ≤ x then ⌊x + 1 / 2⌋ else ⌈x - 1 / 2⌉

/-- `hex_round` (`hex.rs`): round each cube component, then recompute the
component whose rounding error is largest (`q` only when strictly largest,
else `r` when its error strictly exceeds the `s` error, else implicitly `s`). -/
def hex_round (q r : ℚ) : HexCoord :=
  let s := -q - r
  let rq := rustRound q
  let rr := rustRound r
  let rs := rustRound s
  let q_diff := |(rq : ℚ) - q|
  let r_diff := |(rr : ℚ) - r|
  let s_diff := |(rs : ℚ) - s|
  if q_diff > r_diff ∧ q_diff > s_diff then ⟨-rr - rs, rr⟩
  else if r_diff > s_diff then ⟨rq, -rq - rs⟩
  else ⟨rq, rr⟩

/-- Modelled from the spec claim's words for comparison: same rounding, but
ties between equal errors are resolved preferring to fix `x` over `y` over
`z` (fix `x` whenever its error is ≥ both others). -/
def hexRoundSpecTieX (q r : ℚ) : HexCoord :=
  let s := -q - r
  let rq := rustRound q
  let rr := rustRound r
  let rs := rustRound s
  let q_diff := |(rq : ℚ) - q|
  let r_diff := |(rr : ℚ) - r|
  let s_diff := |(rs : ℚ) - s|
  if q_diff ≥ r_diff ∧ q_diff ≥ s_diff then ⟨-rr - rs, rr⟩
  else if r_diff ≥ s_diff then ⟨rq, -rq - rs⟩
  else ⟨rq, rr⟩

/-- The amended description: recompute the component with the largest
rounding error, resolving ties by preferring to fix `z` over `y` over `x`. -/
def hexRoundSpecTieZ (q r : ℚ) : HexCoord :=
  let s := -q - r
  let rq := rustRound q
  let rr := rustRound r
  let rs := rustRound s
  let q_diff := |(rq : ℚ) - q|
  let r_diff := |(rr : ℚ) - r|
  let s_diff := |(rs : ℚ) - s|
  if s_diff ≥ q_diff ∧ s_diff ≥ r_diff then ⟨rq, rr⟩
  else if r_diff ≥ q_diff then ⟨rq, -rq - rs⟩
  else ⟨-rr - rs, rr⟩

/-! ## rules.rs : game data model and command pipeline -/

/-- Game phases (`Phase` in `rules.rs`). -/
inductive Phase where
  | Deployment
  | Movement
  | Combat
  | End
deriving DecidableEq

/-- `Phase::next`. -/
def Phase.next : Phase → Phase
  | .Deployment => .Movement
  | .Movement => .Combat
  | .Combat => .End
  | .End => .Movement

/-- Player identifier (`Player` in `rules.rs`). -/
inductive Player where
  | Player1
  | Player2
deriving DecidableEq

/-- `Player::opponent`. -/
def Player.opponent : Player → Player
  | .Player1 => .Player2
  | .Player2 => .Player1

/-- Unit classes (`UnitType` in `rules.rs`). -/
inductive UnitType where
  | ReaverTitan
  | WarlordTitan
  | Shadowsword
  | Shadowsword2
  | Shadowsword3
deriving DecidableEq

/-- `UnitType::base_movement`. -/
def UnitType.base_movement : UnitType → Nat
  | .ReaverTitan => 6
  | .WarlordTitan => 4
  | .Shadowsword | .Shadowsword2 | .Shadowsword3 => 5

/-- `UnitType::base_armor`. -/
def UnitType.base_armor : UnitType → Nat
  | .ReaverTitan => 12
  | .WarlordTitan => 16
  | .Shadowsword | .Shadowsword2 | .Shadowsword3 => 8

/-- `UnitType::base_structure`. -/
def UnitType.base_structure : UnitType → Nat
  | .ReaverTitan => 10
  | .WarlordTitan => 14
  | .Shadowsword | .Shadowsword2 | .Shadowsword3 => 6

/-- `UnitType::void_shields`. -/
def UnitType.void_shields : UnitType → Nat
  | .ReaverTitan => 2
  | .WarlordTitan => 4
  | .Shadowsword | .Shadowsword2 | .Shadowsword3 => 0

/-- Terrain types (`TerrainType` in `rules.rs`). -/
inductive TerrainType where
  | Clear
  | Rough
  | Woods
  | Water
  | Ruins
  | Impassable
deriving DecidableEq

/-- `TerrainType::movement_cost` (`None` = impassable). -/
def TerrainType.movement_cost : TerrainType → Option Nat
  | .Clear => some 1
  | .Rough => some 2
  | .Woods => some 2
  | .Water => some 3
  | .Ruins => some 2
  | .Impassable => none

/-- A map tile (`Tile` in `rules.rs`). -/
structure Tile where
  terrain : TerrainType
  elevation : Int
deriving DecidableEq

/-- `Tile::default`. -/
def Tile.default : Tile := ⟨.Clear, 0⟩

/-- The game map (`GameMap` in `rules.rs`); the `HashMap<(i32,i32), Tile>` is
modelled as an association list with distinct keys. -/
structure GameMap where
  width : Int
  height : Int
  tiles : List ((Int × Int) × Tile)
deriving DecidableEq

/-- First-match association-list lookup (model of `HashMap::get`). -/
def lookupTile : List ((Int × Int) × Tile) → Int × Int → Option Tile
  | [], _ => none
  | kv :: rest, key => if kv.1 = key then some kv.2 else lookupTile rest key

namespace GameMap

/-- `GameMap::new`: the rhombus-shaped coordinate set, all tiles default.
Rust iterates `r in 0..height`, `q in -r_offset..(width - r_offset)` with
`r_offset = r / 2`. -/
def new (width height : Int) : GameMap :=
  { width := width, height := height,
    tiles := ((List.range height.toNat).map (fun ri =>
      let r : Int := ri
      let r_offset := r / 2
      (List.range width.toNat).map (fun qi =>
        let q : Int := -r_offset + qi
        ((q, r), Tile.default)))).flatten }

/-- `GameMap::get_tile`. -/
def get_tile (m : GameMap) (coord : HexCoord) : Option Tile :=
  lookupTile m.tiles (coord.q, coord.r)

/-- `GameMap::is_valid`. -/
def is_valid (m : GameMap) (coord : HexCoord) : Bool :=
  (m.get_tile coord).isSome

/-- `GameMap::terrain_at`: `Impassable` when the coordinate is absent. -/
def terrain_at (m : GameMap) (coord : HexCoord) : TerrainType :=
  match m.get_tile coord with
  | some t => t.terrain
  | none => .Impassable

end GameMap

/-- A battlefield unit (`Unit` in `rules.rs`). -/
structure Unit where
  id : Nat
  unit_type : UnitType
  owner : Player
  position : HexCoord
  facing : Facing
  armor : Nat
  structure_points : Nat
  void_shields : Nat
  movement_remaining : Nat
  has_moved : Bool
  has_attacked : Bool
deriving DecidableEq

namespace Unit

/-- `Unit::new`. -/
def new (id : Nat) (unit_type : UnitType) (owner : Player) (position : HexCoord)
    (facing : Facing) : Unit :=
  { id := id, unit_type := unit_type, owner := owner, position := position,
    facing := facing,
    armor := unit_type.base_armor,
    structure_points := unit_type.base_structure,
    void_shields := unit_type.void_shields,
    movement_remaining := unit_type.base_movement,
    has_moved := false, has_attacked := false }

/-- `Unit::is_destroyed`. -/
def is_destroyed (u : Unit) : Bool := u.structure_points = 0

/-- `Unit::reset_for_turn`. -/
def reset_for_turn (u : Unit) : Unit :=
  { u with movement_remaining := u.unit_type.base_movement,
           has_moved := false, has_attacked := false }

/-- `Unit::effective_movement`. -/
def effective_movement (u : Unit) : Nat := u.movement_remaining

end Unit

/-- Player commands (`Command` in `rules.rs`). -/
inductive Command where
  | Move (unit_id : Nat) (path : List HexCoord) (final_facing : Facing)
  | EndPhase
  | EndTurn
deriving DecidableEq

/-- Events (`GameEvent` in `rules.rs`). -/
inductive GameEvent where
  | UnitMoved (unit_id : Nat) (from_ : HexCoord) (to_ : HexCoord) (facing : Facing)
  | PhaseChanged (from_ : Phase) (to_ : Phase)
  | TurnChanged (turn : Nat)
  | UnitDestroyed (unit_id : Nat)
deriving DecidableEq

/-- Complete game state (`GameState` in `rules.rs`). -/
structure GameState where
  map : GameMap
  units : List Unit
  current_turn : Nat
  current_phase : Phase
  active_player : Player
  selected_unit : Option Nat
  events : List GameEvent
  game_over : Bool
  winner : Option Player
deriving DecidableEq

/-- Update the first element satisfying `p` (model of `iter_mut().find`). -/
def update_first (p : Unit → Bool) (f : Unit → Unit) : List Unit → List Unit
  | [] => []
  | u :: rest => if p u then f u :: rest else u :: update_first p f rest

namespace GameState

/-- `GameState::new`. -/
def new (map : GameMap) : GameState :=
  { map := map, units := [], current_turn := 1, current_phase := .Deployment,
    active_player := .Player1, selected_unit := none, events := [],
    game_over := false, winner := none }

/-- `GameState::add_unit`. -/
def add_unit (s : GameState) (u : Unit) : GameState :=
  { s with units := s.units ++ [u] }

/-- `GameState::get_unit`: first unit with the given id. -/
def get_unit (s : GameState) (id : Nat) : Option Unit :=
  s.units.find? (fun u => u.id == id)

/-- `GameState::unit_at`: first living unit at the position. -/
def unit_at (s : GameState) (pos : HexCoord) : Option Unit :=
  s.units.find? (fun u => decide (u.position = pos) && !u.is_destroyed)

/-- `GameState::player_units`: a player's living units. -/
def player_units (s : GameState) (player : Player) : List Unit :=
  s.units.filter (fun u => decide (u.owner = player) && !u.is_destroyed)

/-- `GameState::end_turn`. -/
def end_turn (s : GameState) : GameState :=
  { s with current_turn := s.current_turn + 1,
           current_phase := .Movement,
           active_player := s.active_player.opponent,
           units := s.units.map Unit.reset_for_turn }

/-- `GameState::process_command`.  Rust takes `&mut self` and returns
`Result<Vec<GameEvent>, String>`; we return the (possibly updated) state
together with the result.  Every `Err` early-return leaves the state as it
was. -/
def process_command (s : GameState) (command : Command) :
    GameState × Except String (List GameEvent) :=
  match command with
  | .Move unit_id path final_facing =>
    if s.current_phase ≠ .Movement then
      (s, .error "Cannot move outside of movement phase")
    else
      match s.get_unit unit_id with
      | none => (s, .error "Unit not found")
      | some unit =>
        if unit.owner ≠ s.active_player then
          (s, .error "Cannot move opponent's unit")
        else if unit.has_moved then
          (s, .error "Unit has already moved this turn")
        else
          match path.getLast? with
          | none => (s, .error "Path is empty")
          | some endc =>
            if ¬ s.map.is_valid endc then
              (s, .error "Invalid destination")
            else if (s.unit_at endc).isSome ∧ endc ≠ unit.position then
              (s, .error "Destination occupied")
            else
              let events := [GameEvent.UnitMoved unit_id unit.position endc final_facing]
              let upd := fun v => { v with position := endc, facing := final_facing,
                                           has_moved := true, movement_remaining := 0 }
              let s2 := { s with units := update_first (fun v => v.id == unit_id) upd s.units }
              ({ s2 with events := s2.events ++ events }, .ok events)
  | .EndPhase =>
    let old_phase := s.current_phase
    let s1 := { s with current_phase := s.current_phase.next }
    let p := if s1.current_phase = .End then
        let s3 := s1.end_turn
        (s3, [GameEvent.TurnChanged s3.current_turn])
      else (s1, ([] : List GameEvent))
    let events := p.2 ++ [GameEvent.PhaseChanged old_phase p.1.current_phase]
    ({ p.1 with events := p.1.events ++ events }, .ok events)
  | .EndTurn =>
    let old_phase := s.current_phase
    let s1 := s.end_turn
    let events := [GameEvent.PhaseChanged old_phase .Movement,
                   GameEvent.TurnChanged s1.current_turn]
    ({ s1 with events := s1.events ++ events }, .ok events)

/-- `GameState::select_unit`. -/
def select_unit (s : GameState) (unit_id : Option Nat) : GameState :=
  { s with selected_unit := unit_id }

/-- `GameState::check_victory`. -/
def check_victory (s : GameState) : GameState :=
  let p1_alive := (s.player_units .Player1).length
  let p2_alive := (s.player_units .Player2).length
  if p1_alive = 0 ∧ p2_alive > 0 then
    { s with game_over := true, winner := some .Player2 }
  else if p2_alive = 0 ∧ p1_alive > 0 then
    { s with game_over := true, winner := some .Player1 }
  else s

end GameState

/-! ## movement.rs : pathfinding -/

/-- `movement_cost`: entry cost of the destination tile. -/
def movement_cost (map : GameMap) (_from : HexCoord) (to_ : HexCoord) : Option Nat :=
  (map.get_tile to_).bind (fun tile => tile.terrain.movement_cost)

/-- `is_blocked`: the *stopping* predicate — true when the hex is invalid,
impassable, or holds any living unit other than the moving one. -/
def is_blocked (s : GameState) (coord : HexCoord) (moving_unit_id : Nat) : Bool :=
  if !s.map.is_valid coord then true
  else if s.map.terrain_at coord = .Impassable then true
  else
    match s.unit_at coord with
    | some u => if u.id ≠ moving_unit_id then true else false
    | none => false

/-- `can_pass_through`: the passability predicate — own position and allied
units may be transited, enemies and impassable/invalid hexes may not. -/
def can_pass_through (s : GameState) (coord : HexCoord) (moving_unit : Unit) : Bool :=
  if !s.map.is_valid coord then false
  else if s.map.terrain_at coord = .Impassable then false
  else
    match s.unit_at coord with
    | some u =>
      if u.id = moving_unit.id then true
      else if u.owner = moving_unit.owner then true
      else false
    | none => true

/-- A* / Dijkstra frontier node (`PathNode` in `movement.rs`). -/
structure PathNode where
  coord : HexCoord
  cost : Nat
  priority : Nat
deriving DecidableEq

/-- `Ord for PathNode`: reversed priority (min-heap behaviour), ties broken
by `q` then `r`. -/
def PathNode.cmp (a b : PathNode) : Ordering :=
  ((compare b.priority a.priority).then (compare a.coord.q b.coord.q)).then
    (compare a.coord.r b.coord.r)

/-- The greatest node of a nonempty collection w.r.t. `PathNode.cmp`
(model of what `BinaryHeap::pop` returns). -/
def heapMax (x : PathNode) (xs : List PathNode) : PathNode :=
  xs.foldl (fun best e => if PathNode.cmp e best = .gt then e else best) x

/-- `BinaryHeap::pop`: remove and return a greatest element.  Among elements
comparing equal (which in both searches are structurally identical) the
choice is immaterial. -/
def heapPop : List PathNode → Option (PathNode × List PathNode)
  | [] => none
  | x :: xs => some (heapMax x xs, (x :: xs).erase (heapMax x xs))

/-- `HashMap::insert` on a `HexCoord`-keyed association list (overwrites). -/
def eraseKeyN : List (HexCoord × Nat) → HexCoord → List (HexCoord × Nat)
  | [], _ => []
  | kv :: rest, c => if kv.1 = c then eraseKeyN rest c else kv :: eraseKeyN rest c

/-- Insert/overwrite a binding. -/
def insertN (l : List (HexCoord × Nat)) (c : HexCoord) (v : Nat) : List (HexCoord × Nat) :=
  (c, v) :: eraseKeyN l c

/-- `HashMap::get` on a `HexCoord`-keyed association list. -/
def lookupN : List (HexCoord × Nat) → HexCoord → Option Nat
  | [], _ => none
  | kv :: rest, c => if kv.1 = c then some kv.2 else lookupN rest c

/-- One neighbour of the expansion loop body of `find_reachable`: push the
neighbour when it is not visited, passable and affordable (the `can_stop`
branch in the source pushes the identical node in both arms). -/
def expandStep (s : GameState) (u : Unit) (budget : Nat) (current : PathNode)
    (visited : List HexCoord) (fr : List PathNode) (n : HexCoord) : List PathNode :=
  if n ∈ visited then fr
  else if !can_pass_through s n u then fr
  else
    match movement_cost s.map current.coord n with
    | none => fr
    | some cost =>
      let new_cost := current.cost + cost
      if new_cost ≤ budget then
        if !is_blocked s n u.id then
          ⟨n, new_cost, new_cost⟩ :: fr
        else
          ⟨n, new_cost, new_cost⟩ :: fr
      else fr

/-- The neighbour-expansion loop of `find_reachable`. -/
def expandNeighbors (s : GameState) (u : Unit) (budget : Nat) (current : PathNode)
    (visited : List HexCoord) (fr : List PathNode) : List PathNode :=
  current.coord.neighbors.foldl (expandStep s u budget current visited) fr

/-- The `while let Some(current) = frontier.pop()` loop of `find_reachable`.
`fuel` bounds the number of iterations; `find_reachable` supplies
`7 * (tiles + 1)`, which exceeds the total number of heap insertions ever
possible (every push stems from the first pop of one of the at most
`tiles + 1` coordinates reachable in the frontier, each contributing at most
6 pushes, plus the initial node), so the loop always drains the frontier
before the fuel runs out. -/
def reachLoop (s : GameState) (u : Unit) (budget : Nat) :
    Nat → List PathNode → List HexCoord → List (HexCoord × Nat) → List (HexCoord × Nat)
  | 0, _, _, reachable => reachable
  | fuel + 1, frontier, visited, reachable =>
    match heapPop frontier with
    | none => reachable
    | some (current, rest) =>
      if current.coord ∈ visited then
        reachLoop s u budget fuel rest visited reachable
      else
        let visited2 := current.coord :: visited
        let reachable2 := insertN reachable current.coord (budget - current.cost)
        let rest2 := expandNeighbors s u budget current visited2 rest
        reachLoop s u budget fuel rest2 visited2 reachable2

/-- `find_reachable`: budget-bounded uniform-cost search from the unit's
position; hexes one cannot stop on (other than the start) are removed at the
end. -/
def find_reachable (s : GameState) (u : Unit) : List (HexCoord × Nat) :=
  let start := u.position
  let budget := u.effective_movement
  let result := reachLoop s u budget (7 * (s.map.tiles.length + 1))
    [⟨start, 0, 0⟩] [] []
  result.filter (fun p => !is_blocked s p.1 u.id || p.1 = start)

/-- `HashMap::get` on a `HexCoord`-keyed coordinate map (`came_from`). -/
def lookupC : List (HexCoord × HexCoord) → HexCoord → Option HexCoord
  | [], _ => none
  | kv :: rest, c => if kv.1 = c then some kv.2 else lookupC rest c

/-- Remove a key from `came_from`. -/
def eraseKeyC : List (HexCoord × HexCoord) → HexCoord → List (HexCoord × HexCoord)
  | [], _ => []
  | kv :: rest, c => if kv.1 = c then eraseKeyC rest c else kv :: eraseKeyC rest c

/-- Insert/overwrite in `came_from`. -/
def insertC (l : List (HexCoord × HexCoord)) (c v : HexCoord) : List (HexCoord × HexCoord) :=
  (c, v) :: eraseKeyC l c

/-- Path reconstruction of `find_path`: walk `came_from` back from the
target.  The chain strictly shortens each step in every reachable state;
`fuel` (one more than the map size) covers it. -/
def reconstructPath (came_from : List (HexCoord × HexCoord)) :
    Nat → HexCoord → List HexCoord → List HexCoord
  | 0, _, path => path
  | fuel + 1, cur, path =>
    match lookupC came_from cur with
    | some prev => reconstructPath came_from fuel prev (path ++ [prev])
    | none => path

/-- The neighbour-relaxation of the A* loop in `find_path`. -/
def astarExpand (s : GameState) (u : Unit) (budget : Nat) (target : HexCoord)
    (current : PathNode) (acc : List PathNode × List (HexCoord × HexCoord) × List (HexCoord × Nat)) :
    List PathNode × List (HexCoord × HexCoord) × List (HexCoord × Nat) :=
  let current_g := (lookupN acc.2.2 current.coord).getD 4294967295
  current.coord.neighbors.foldl (fun acc n =>
    if !can_pass_through s n u then acc
    else
      match movement_cost s.map current.coord n with
      | none => acc
      | some cost =>
        let tentative_g := current_g + cost
        if tentative_g > budget then acc
        else if tentative_g < (lookupN acc.2.2 n).getD 4294967295 then
          ( ⟨n, tentative_g, tentative_g + n.distance_to target⟩ :: acc.1
          , insertC acc.2.1 n current.coord
          , insertN acc.2.2 n tentative_g )
        else acc) acc

/-- The `while let Some(current) = open_set.pop()` loop of `find_path`. -/
def astarLoop (s : GameState) (u : Unit) (budget : Nat) (target : HexCoord) :
    Nat → List PathNode → List (HexCoord × HexCoord) → List (HexCoord × Nat) →
    Option (List HexCoord × Nat)
  | 0, _, _, _ => none
  | fuel + 1, open_set, came_from, g_score =>
    match heapPop open_set with
    | none => none
    | some (current, rest) =>
      if current.coord = target then
        let path := (reconstructPath came_from (came_from.length + 1) target [target]).reverse
        some (path, (lookupN g_score target).getD 0)
      else
        let acc := astarExpand s u budget target current (rest, came_from, g_score)
        astarLoop s u budget target fuel acc.1 acc.2.1 acc.2.2

/-- `find_path`: A* search.  The two early returns (trivial path when already
at the target, immediate failure when the target fails the stopping
predicate) precede any search.  The fuel bounds the number of loop
iterations: every push strictly lowers the pushed coordinate's `g_score`,
which is at most `budget`, over at most `tiles + 1` coordinates. -/
def find_path (s : GameState) (u : Unit) (target : HexCoord) (max_cost : Option Nat) :
    Option (List HexCoord × Nat) :=
  let start := u.position
  let budget := max_cost.getD u.effective_movement
  if start = target then some ([start], 0)
  else if is_blocked s target u.id then none
  else
    astarLoop s u budget target ((s.map.tiles.length + 1) * (budget + 2) + 1)
      [⟨start, 0, start.distance_to target⟩] [] (insertN [] start 0)

/-! ## Operations observable by a host (for the phase invariant) -/

/-- The state-changing operations a caller can perform on a `GameState`. -/
inductive Op where
  | cmd (c : Command)
  | add (u : Unit)
  | select (o : Option Nat)
  | victory

/-- Apply one operation (for `cmd`, keep the state `process_command` leaves
behind, whether it succeeded or not). -/
def apply_op (s : GameState) : Op → GameState
  | .cmd c => (s.process_command c).1
  | .add u => s.add_unit u
  | .select o => s.select_unit o
  | .victory => s.check_victory

/-- Run a sequence of operations. -/
def run_ops (s : GameState) (ops : List Op) : GameState :=
  ops.foldl apply_op s

/-! ## Helper lemmas -/

/-- A `Move` command never changes the current phase of the kept state. -/
theorem move_phase_eq (s : GameState) (uid : Nat) (path : List HexCoord) (f : Facing) :
    ((s.process_command (.Move uid path f)).1).current_phase = s.current_phase := by
  simp only [GameState.process_command]
  repeat' split
  all_goals rfl

/-- After any command, the kept state's phase is the old phase (for `Move`)
or a phase other than `End`. -/
theorem process_command_phase_ne_end (s : GameState) (c : Command)
    (h : s.current_phase ≠ .End) :
    ((s.process_command c).1).current_phase ≠ .End := by
  cases c with
  | Move uid path f => rw [move_phase_eq]; exact h
  | EndPhase =>
    cases hp : s.current_phase <;>
      simp [GameState.process_command, GameState.end_turn, Phase.next, hp]
  | EndTurn => simp [GameState.process_command, GameState.end_turn]

/-- `check_victory` does not change the phase. -/
theorem check_victory_phase (s : GameState) :
    (s.check_victory).current_phase = s.current_phase := by
  simp only [GameState.check_victory]
  repeat' split
  all_goals rfl

/-- `find?` after `update_first` with an id-preserving update. -/
theorem find?_update_first (units : List Unit) (uid : Nat) (u : Unit) (g : Unit → Unit)
    (hg : (g u).id = u.id)
    (h : units.find? (fun v => v.id == uid) = some u) :
    (update_first (fun v => v.id == uid) g units).find? (fun v => v.id == uid) =
      some (g u) := by
  induction units with
  | nil => simp at h
  | cons w rest ih =>
    by_cases hw : w.id = uid
    · rw [List.find?_cons_of_pos _ (by simpa using hw)] at h
      obtain rfl : w = u := by injection h
      rw [update_first, if_pos (by simpa using hw)]
      exact List.find?_cons_of_pos _ (by simp [hg, hw])
    · rw [List.find?_cons_of_neg _ (by simpa using hw)] at h
      rw [update_first, if_neg (by simpa using hw)]
      rw [List.find?_cons_of_neg _ (by simpa using hw)]
      exact ih h

/-! ### Hex-distance geometry -/

/-- The distance formula in explicit form. -/
theorem distance_to_def (a b : HexCoord) :
    a.distance_to b =
      ((a.q - b.q).natAbs + ((a.q - b.q) + (a.r - b.r)).natAbs + (a.r - b.r).natAbs) / 2 := by
  simp only [HexCoord.distance_to, HexCoord.to_cube]
  omega

/-- Distance to oneself is zero. -/
theorem distance_to_self (a : HexCoord) : a.distance_to a = 0 := by
  rw [distance_to_def]; omega

/-- Zero distance forces equality. -/
theorem eq_of_distance_to_eq_zero {a b : HexCoord} (h : a.distance_to b = 0) : a = b := by
  cases a; cases b
  rw [distance_to_def] at h
  rw [HexCoord.mk.injEq]
  simp only at h
  omega

/-- Triangle inequality for the hex distance. -/
theorem distance_to_triangle (a b c : HexCoord) :
    a.distance_to c ≤ a.distance_to b + b.distance_to c := by
  rw [distance_to_def, distance_to_def, distance_to_def]
  omega

/-- Neighbours (list version) are exactly the hexes at distance 1. -/
theorem mem_neighbors_iff_distance (c n : HexCoord) :
    n ∈ c.neighbors ↔ c.distance_to n = 1 := by
  constructor
  · intro h
    simp only [HexCoord.neighbors, List.mem_cons, List.mem_singleton,
      List.not_mem_nil, or_false] at h
    rcases h with h | h | h | h | h | h <;> subst h <;>
      (rw [distance_to_def]; simp only; omega)
  · intro h
    cases c with
    | mk cq cr =>
      cases n with
      | mk nq nr =>
        rw [distance_to_def] at h
        simp only at h
        simp only [HexCoord.neighbors, List.mem_cons, List.mem_singleton,
          HexCoord.mk.injEq]
        omega

/-- Adjacency is symmetric. -/
theorem mem_neighbors_symm {c n : HexCoord} (h : n ∈ c.neighbors) : c ∈ n.neighbors := by
  rw [mem_neighbors_iff_distance] at h ⊢
  rw [distance_to_def] at h ⊢
  omega

/-- One step toward `start`: any hex at positive distance has a neighbour one
closer to `start`. -/
theorem exists_step_toward (start c : HexCoord) (h : 0 < start.distance_to c) :
    ∃ p ∈ c.neighbors, start.distance_to p + 1 = start.distance_to c := by
  by_cases hx : 0 < start.q - c.q
  · by_cases hz : start.r - c.r < 0
    · refine ⟨⟨c.q + 1, c.r - 1⟩, by simp [HexCoord.neighbors], ?_⟩
      rw [distance_to_def, distance_to_def] at *
      simp only at *
      omega
    · refine ⟨⟨c.q + 1, c.r⟩, by simp [HexCoord.neighbors], ?_⟩
      rw [distance_to_def, distance_to_def] at *
      simp only at *
      omega
  · by_cases hx2 : start.q - c.q < 0
    · by_cases hz : 0 < start.r - c.r
      · refine ⟨⟨c.q - 1, c.r + 1⟩, by simp [HexCoord.neighbors], ?_⟩
        rw [distance_to_def, distance_to_def] at *
        simp only at *
        omega
      · refine ⟨⟨c.q - 1, c.r⟩, by simp [HexCoord.neighbors], ?_⟩
        rw [distance_to_def, distance_to_def] at *
        simp only at *
        omega
    · by_cases hz : 0 < start.r - c.r
      · refine ⟨⟨c.q, c.r + 1⟩, by simp [HexCoord.neighbors], ?_⟩
        rw [distance_to_def, distance_to_def] at *
        simp only at *
        omega
      · refine ⟨⟨c.q, c.r - 1⟩, by simp [HexCoord.neighbors], ?_⟩
        rw [distance_to_def, distance_to_def] at *
        simp only at *
        omega

/-! ### The distance ball as a `Finset`, for the termination measure -/

/-- All hexes within distance `B` of `s0`. -/
def ballF (s0 : HexCoord) (B : Nat) : Finset HexCoord :=
  (((Finset.Icc (-(B : Int)) (B : Int)) ×ˢ (Finset.Icc (-(B : Int)) (B : Int))).image
    (fun p => HexCoord.mk (s0.q + p.1) (s0.r + p.2))).filter
    (fun c => s0.distance_to c ≤ B)

/-- Membership in the ball is exactly the distance bound. -/
theorem mem_ballF {s0 : HexCoord} {B : Nat} {c : HexCoord} :
    c ∈ ballF s0 B ↔ s0.distance_to c ≤ B := by
  constructor
  · intro h
    exact (Finset.mem_filter.mp h).2
  · intro h
    refine Finset.mem_filter.mpr ⟨Finset.mem_image.mpr ⟨(c.q - s0.q, c.r - s0.r), ?_, ?_⟩, h⟩
    · rw [distance_to_def] at h
      refine Finset.mem_product.mpr ⟨Finset.mem_Icc.mpr ?_, Finset.mem_Icc.mpr ?_⟩ <;>
        constructor <;> omega
    · cases c
      simp only [HexCoord.mk.injEq]
      omega

/-! ### Association-list and heap lemmas for the search model -/

/-- Lookup hits are list members. -/
theorem lookupN_some_mem {l : List (HexCoord × Nat)} {c : HexCoord} {v : Nat}
    (h : lookupN l c = some v) : (c, v) ∈ l := by
  induction l with
  | nil => simp [lookupN] at h
  | cons kv rest ih =>
    rw [lookupN] at h
    split at h
    · rename_i hk
      injection h with h'
      subst h'
      exact List.mem_cons.mpr (Or.inl (by rw [← hk]))
    · exact List.mem_cons_of_mem _ (ih h)

/-- Erasing a key keeps the other bindings. -/
theorem mem_eraseKeyN {l : List (HexCoord × Nat)} {c : HexCoord} {kv : HexCoord × Nat}
    (h : kv ∈ eraseKeyN l c) : kv ∈ l := by
  induction l with
  | nil => simp [eraseKeyN] at h
  | cons kv0 rest ih =>
    rw [eraseKeyN] at h
    split at h
    · exact List.mem_cons_of_mem _ (ih h)
    · rcases List.mem_cons.mp h with h | h
      · exact h ▸ List.mem_cons_self _ _
      · exact List.mem_cons_of_mem _ (ih h)

/-- Lookup after erasing a different key. -/
theorem lookupN_eraseKeyN_ne {l : List (HexCoord × Nat)} {c c' : HexCoord}
    (h : c' ≠ c) : lookupN (eraseKeyN l c) c' = lookupN l c' := by
  induction l with
  | nil => rfl
  | cons kv rest ih =>
    rw [eraseKeyN]
    by_cases hk : kv.1 = c
    · rw [if_pos hk, ih, lookupN, if_neg (fun hh : kv.1 = c' => h (hh ▸ hk))]
    · rw [if_neg hk, lookupN, lookupN]
      by_cases hkv : kv.1 = c'
      · rw [if_pos hkv, if_pos hkv]
      · rw [if_neg hkv, if_neg hkv]
        exact ih

/-- Lookup after an insert. -/
theorem lookupN_insertN (l : List (HexCoord × Nat)) (c : HexCoord) (v : Nat)
    (c' : HexCoord) :
    lookupN (insertN l c v) c' = if c' = c then some v else lookupN l c' := by
  rw [insertN, lookupN]
  split
  · rename_i h
    rw [if_pos h.symm]
  · rename_i h
    rw [if_neg (fun hh => h hh.symm), lookupN_eraseKeyN_ne (fun hh => h hh.symm)]

/-- Members of an insert. -/
theorem mem_insertN {l : List (HexCoord × Nat)} {c : HexCoord} {v : Nat}
    {kv : HexCoord × Nat} (h : kv ∈ insertN l c v) : kv = (c, v) ∨ kv ∈ l := by
  rcases List.mem_cons.mp h with h | h
  · exact Or.inl h
  · exact Or.inr (mem_eraseKeyN h)

/-- A node comparing greater has a priority no larger (the `Ord` instance
reverses priorities). -/
theorem cmp_gt_priority_le {a b : PathNode} (h : PathNode.cmp a b = .gt) :
    a.priority ≤ b.priority := by
  rcases hc : compare b.priority a.priority with _ | _ | _
  · rw [PathNode.cmp, hc] at h
    simp [Ordering.then] at h
  · exact Nat.le_of_eq (Nat.compare_eq_eq.mp hc).symm
  · exact Nat.le_of_lt (Nat.compare_eq_gt.mp hc)

/-- A node not comparing greater has a priority no smaller. -/
theorem cmp_ngt_priority_le {a b : PathNode} (h : PathNode.cmp a b ≠ .gt) :
    b.priority ≤ a.priority := by
  rcases hc : compare b.priority a.priority with _ | _ | _
  · exact Nat.le_of_lt (Nat.compare_eq_lt.mp hc)
  · exact Nat.le_of_eq (Nat.compare_eq_eq.mp hc)
  · exfalso
    apply h
    rw [PathNode.cmp, hc]
    simp [Ordering.then]

/-- `heapMax` returns an element of the collection. -/
theorem heapMax_mem (x : PathNode) (xs : List PathNode) : heapMax x xs ∈ x :: xs := by
  induction xs generalizing x with
  | nil => exact List.mem_cons_self _ _
  | cons e xs ih =>
    have hx : heapMax x (e :: xs) = heapMax (if PathNode.cmp e x = .gt then e else x) xs := rfl
    rw [hx]
    rcases List.mem_cons.mp (ih (if PathNode.cmp e x = .gt then e else x)) with h | h
    · rw [h]
      split
      · exact List.mem_cons_of_mem _ (List.mem_cons_self _ _)
      · exact List.mem_cons_self _ _
    · exact List.mem_cons_of_mem _ (List.mem_cons_of_mem _ h)

/-- `heapMax` has minimal priority. -/
theorem heapMax_priority_le (x : PathNode) (xs : List PathNode) :
    ∀ e ∈ x :: xs, (heapMax x xs).priority ≤ e.priority := by
  induction xs generalizing x with
  | nil =>
    intro e he
    rw [List.mem_singleton] at he
    rw [heapMax, List.foldl_nil, he]
  | cons f xs ih =>
    intro e he
    have hx : heapMax x (f :: xs) = heapMax (if PathNode.cmp f x = .gt then f else x) xs := rfl
    rw [hx]
    have step_le_x : (if PathNode.cmp f x = .gt then f else x).priority ≤ x.priority := by
      split
      · exact cmp_gt_priority_le (by assumption)
      · exact Nat.le_refl _
    have step_le_f : (if PathNode.cmp f x = .gt then f else x).priority ≤ f.priority := by
      split
      · exact Nat.le_refl _
      · exact cmp_ngt_priority_le (by assumption)
    rcases List.mem_cons.mp he with h | h
    · exact Nat.le_trans (ih _ _ (List.mem_cons_self _ _)) (h ▸ step_le_x)
    · rcases List.mem_cons.mp h with h' | h'
      · exact Nat.le_trans (ih _ _ (List.mem_cons_self _ _)) (h' ▸ step_le_f)
      · exact ih _ _ (List.mem_cons_of_mem _ h')

/-- `heapPop` returns `none` exactly on the empty heap. -/
theorem heapPop_none {l : List PathNode} : heapPop l = none ↔ l = [] := by
  cases l <;> simp [heapPop]

/-- Characterisation of a successful pop: the element is a member of minimal
priority, and the rest is the heap with that occurrence erased. -/
theorem heapPop_some {l : List PathNode} {m : PathNode} {rest : List PathNode}
    (h : heapPop l = some (m, rest)) :
    m ∈ l ∧ rest = l.erase m ∧ ∀ e ∈ l, m.priority ≤ e.priority := by
  cases l with
  | nil => simp [heapPop] at h
  | cons x xs =>
    rw [heapPop] at h
    injection h with h'
    obtain ⟨h1, h2⟩ := Prod.mk.injEq .. ▸ h'
    refine ⟨h1 ▸ heapMax_mem x xs, by rw [← h1, ← h2], ?_⟩
    intro e he
    exact h1 ▸ heapMax_priority_le x xs e he

/-- Members of the popped heap are the maximum or members of the rest. -/
theorem mem_of_heapPop {l : List PathNode} {m : PathNode} {rest : List PathNode}
    (h : heapPop l = some (m, rest)) {e : PathNode} (he : e ∈ l) :
    e = m ∨ e ∈ rest := by
  obtain ⟨_, hrest, _⟩ := heapPop_some h
  by_cases hem : e = m
  · exact Or.inl hem
  · exact Or.inr (hrest ▸ (List.mem_erase_of_ne hem).mpr he)

/-- The rest of a pop is contained in the heap. -/
theorem heapPop_rest_subset {l : List PathNode} {m : PathNode} {rest : List PathNode}
    (h : heapPop l = some (m, rest)) {e : PathNode} (he : e ∈ rest) : e ∈ l := by
  obtain ⟨_, hrest, _⟩ := heapPop_some h
  exact List.mem_of_mem_erase (hrest ▸ he)

/-- Popping shortens the heap by one. -/
theorem heapPop_length {l : List PathNode} {m : PathNode} {rest : List PathNode}
    (h : heapPop l = some (m, rest)) : rest.length + 1 = l.length := by
  obtain ⟨hm, hrest, _⟩ := heapPop_some h
  rw [hrest, List.length_erase_of_mem hm]
  have : l.length ≠ 0 := by
    intro h0
    rw [List.length_eq_zero.mp h0] at hm
    simp at hm
  omega

/-- Free description of one expansion step. -/
theorem expandStep_cases (s : GameState) (u : Unit) (budget : Nat) (current : PathNode)
    (visited : List HexCoord) (fr : List PathNode) (n : HexCoord) :
    expandStep s u budget current visited fr n = fr ∨
    (∃ c0, movement_cost s.map current.coord n = some c0 ∧
      expandStep s u budget current visited fr n =
        ⟨n, current.cost + c0, current.cost + c0⟩ :: fr ∧
      n ∉ visited ∧ can_pass_through s n u = true ∧ current.cost + c0 ≤ budget) := by
  rw [expandStep]
  by_cases h1 : n ∈ visited
  · rw [if_pos h1]; exact Or.inl rfl
  · rw [if_neg h1]
    by_cases h2 : can_pass_through s n u = true
    · rw [if_neg (by simp [h2])]
      rcases hmc : movement_cost s.map current.coord n with _ | c0
      · exact Or.inl rfl
      · simp only
        by_cases h3 : current.cost + c0 ≤ budget
        · rw [if_pos h3]
          refine Or.inr ⟨c0, rfl, ?_, h1, h2, h3⟩
          split <;> rfl
        · rw [if_neg h3]; exact Or.inl rfl
    · rw [if_pos (by simp [Bool.not_eq_true] at h2; simp [h2])]
      exact Or.inl rfl

/-- The step with all its guards satisfied pushes the node. -/
theorem expandStep_pushes (s : GameState) (u : Unit) (budget : Nat) (current : PathNode)
    (visited : List HexCoord) (fr : List PathNode) (n : HexCoord) (c0 : Nat)
    (h1 : n ∉ visited) (h2 : can_pass_through s n u = true)
    (hmc : movement_cost s.map current.coord n = some c0)
    (h3 : current.cost + c0 ≤ budget) :
    expandStep s u budget current visited fr n =
      ⟨n, current.cost + c0, current.cost + c0⟩ :: fr := by
  rw [expandStep, if_neg h1, if_neg (by simp [h2]), hmc]
  simp only
  rw [if_pos h3]
  split <;> rfl

/-- Folding the expansion step preserves membership. -/
theorem expandFold_mono (s : GameState) (u : Unit) (budget : Nat) (current : PathNode)
    (visited : List HexCoord) :
    ∀ (ns : List HexCoord) (fr : List PathNode) (e : PathNode), e ∈ fr →
      e ∈ ns.foldl (expandStep s u budget current visited) fr := by
  intro ns
  induction ns with
  | nil => intro fr e he; exact he
  | cons n ns ih =>
    intro fr e he
    rw [List.foldl_cons]
    apply ih
    rcases expandStep_cases s u budget current visited fr n with h | ⟨c0, _, h, _⟩
    · rw [h]; exact he
    · rw [h]; exact List.mem_cons_of_mem _ he

/-- Members after folding the expansion step: old members or fresh pushes. -/
theorem expandFold_mem (s : GameState) (u : Unit) (budget : Nat) (current : PathNode)
    (visited : List HexCoord) :
    ∀ (ns : List HexCoord) (fr : List PathNode) (e : PathNode),
      e ∈ ns.foldl (expandStep s u budget current visited) fr →
      e ∈ fr ∨ ∃ n ∈ ns, ∃ c0, movement_cost s.map current.coord n = some c0 ∧
        e = ⟨n, current.cost + c0, current.cost + c0⟩ ∧
        n ∉ visited ∧ can_pass_through s n u = true ∧ current.cost + c0 ≤ budget := by
  intro ns
  induction ns with
  | nil => intro fr e he; exact Or.inl he
  | cons n ns ih =>
    intro fr e he
    rw [List.foldl_cons] at he
    rcases ih _ e he with h | ⟨n', hn', rest⟩
    · rcases expandStep_cases s u budget current visited fr n with hc | ⟨c0, hmc, hc, hv, hp, hb⟩
      · rw [hc] at h
        exact Or.inl h
      · rw [hc] at h
        rcases List.mem_cons.mp h with h' | h'
        · exact Or.inr ⟨n, List.mem_cons_self _ _, c0, hmc, h', hv, hp, hb⟩
        · exact Or.inl h'
    · exact Or.inr ⟨n', List.mem_cons_of_mem _ hn', rest⟩

/-- A neighbour with all guards satisfied ends up in the folded frontier. -/
theorem expandFold_pushes (s : GameState) (u : Unit) (budget : Nat) (current : PathNode)
    (visited : List HexCoord) :
    ∀ (ns : List HexCoord) (fr : List PathNode) (n : HexCoord) (c0 : Nat), n ∈ ns →
      n ∉ visited → can_pass_through s n u = true →
      movement_cost s.map current.coord n = some c0 → current.cost + c0 ≤ budget →
      (⟨n, current.cost + c0, current.cost + c0⟩ : PathNode) ∈
        ns.foldl (expandStep s u budget current visited) fr := by
  intro ns
  induction ns with
  | nil => intro fr n c0 hn; simp at hn
  | cons m ns ih =>
    intro fr n c0 hn h1 h2 hmc h3
    rw [List.foldl_cons]
    rcases List.mem_cons.mp hn with h | h
    · subst h
      apply expandFold_mono
      rw [expandStep_pushes s u budget current visited fr n c0 h1 h2 hmc h3]
      exact List.mem_cons_self _ _
    · exact ih _ n c0 h h1 h2 hmc h3

/-- Each fold step adds at most one node. -/
theorem expandFold_length (s : GameState) (u : Unit) (budget : Nat) (current : PathNode)
    (visited : List HexCoord) :
    ∀ (ns : List HexCoord) (fr : List PathNode),
      (ns.foldl (expandStep s u budget current visited) fr).length ≤
        fr.length + ns.length := by
  intro ns
  induction ns with
  | nil => intro fr; simp
  | cons n ns ih =>
    intro fr
    rw [List.foldl_cons]
    have hstep : (expandStep s u budget current visited fr n).length ≤ fr.length + 1 := by
      rcases expandStep_cases s u budget current visited fr n with h | ⟨c0, _, h, _⟩ <;>
        rw [h] <;> simp
    have := ih (expandStep s u budget current visited fr n)
    simp only [List.length_cons]
    omega

/-! ### The search graph under all-Clear terrain with a single unit -/

/-- Tile lookups return stored tiles. -/
theorem lookupTile_mem {l : List ((Int × Int) × Tile)} {k : Int × Int} {t : Tile}
    (h : lookupTile l k = some t) : (k, t) ∈ l := by
  induction l with
  | nil => simp [lookupTile] at h
  | cons kv rest ih =>
    rw [lookupTile] at h
    split at h
    · rename_i hk
      injection h with h'
      subst h'
      exact List.mem_cons.mpr (Or.inl (by rw [← hk]))
    · exact List.mem_cons_of_mem _ (ih h)

/-- On an all-Clear map, the terrain of every valid coordinate is Clear. -/
theorem terrain_clear {s : GameState}
    (hclear : ∀ kv ∈ s.map.tiles, kv.2.terrain = TerrainType.Clear)
    {c : HexCoord} (hv : s.map.is_valid c = true) :
    s.map.terrain_at c = .Clear := by
  rw [GameMap.is_valid, Option.isSome_iff_exists] at hv
  obtain ⟨t, ht⟩ := hv
  rw [GameMap.terrain_at, ht]
  exact hclear _ (lookupTile_mem ht)

/-- On an all-Clear map, every step into a valid coordinate costs 1. -/
theorem cost_one {s : GameState}
    (hclear : ∀ kv ∈ s.map.tiles, kv.2.terrain = TerrainType.Clear)
    {c : HexCoord} (hv : s.map.is_valid c = true) (c' : HexCoord) :
    movement_cost s.map c' c = some 1 := by
  rw [GameMap.is_valid, Option.isSome_iff_exists] at hv
  obtain ⟨t, ht⟩ := hv
  rw [movement_cost, ht]
  have hct : t.terrain = .Clear := hclear _ (lookupTile_mem ht)
  show t.terrain.movement_cost = some 1
  rw [hct]
  rfl

/-- With a single unit on the board, `unit_at` only ever finds that unit. -/
theorem unit_at_singleton {s : GameState} {u : Unit} (hunits : s.units = [u])
    {c : HexCoord} {w : Unit} (h : s.unit_at c = some w) : w = u := by
  rw [GameState.unit_at, hunits] at h
  simp only [List.find?] at h
  split at h
  · injection h with h''
    exact h''.symm
  · exact Option.noConfusion h

/-- With a single unit, a valid all-Clear hex is never a blocked stop. -/
theorem not_blocked_of_valid {s : GameState} {u : Unit} (hunits : s.units = [u])
    (hclear : ∀ kv ∈ s.map.tiles, kv.2.terrain = TerrainType.Clear)
    {c : HexCoord} (hv : s.map.is_valid c = true) :
    is_blocked s c u.id = false := by
  rw [is_blocked, if_neg (by simp [hv]), if_neg (by simp [terrain_clear hclear hv])]
  rcases ha : s.unit_at c with _ | w
  · rfl
  · have hw : w = u := unit_at_singleton hunits ha
    subst hw
    simp

/-- An invalid hex is always blocked. -/
theorem blocked_of_invalid {s : GameState} {c : HexCoord} (id0 : Nat)
    (hv : s.map.is_valid c = false) : is_blocked s c id0 = true := by
  rw [is_blocked, if_pos (by simp [hv])]

/-- With a single unit on all-Clear terrain, passability is exactly map
validity. -/
theorem pass_iff_valid {s : GameState} {u : Unit} (hunits : s.units = [u])
    (hclear : ∀ kv ∈ s.map.tiles, kv.2.terrain = TerrainType.Clear)
    (c : HexCoord) : can_pass_through s c u = s.map.is_valid c := by
  rcases hv : s.map.is_valid c with _ | _
  · rw [can_pass_through, if_pos (by simp [hv])]
  · rw [can_pass_through, if_neg (by simp [hv]),
      if_neg (by simp [terrain_clear hclear hv])]
    rcases ha : s.unit_at c with _ | w
    · rfl
    · have hw : w = u := unit_at_singleton hunits ha
      subst hw
      simp

/-! ### Dijkstra invariants for `find_reachable` -/

/-- Invariant of the `find_reachable` loop in the all-Clear, single-unit
setting: (frontier soundness) every frontier node carries its cost as
priority, within budget, and at least the hex distance of its coordinate;
(frontier covers the start) the start is visited or still queued at cost 0;
(visited soundness) visited hexes are within budget and recorded with the
exact remaining movement; (frontier covers the boundary) every in-budget
geodesic successor of a visited hex is visited or queued at its distance;
(recorded keys) every recorded hex is visited. -/
def ReachInv (u : Unit) (B : Nat) (frontier : List PathNode)
    (visited : List HexCoord) (reachable : List (HexCoord × Nat)) : Prop :=
  (∀ e ∈ frontier, e.priority = e.cost ∧ e.cost ≤ B ∧
      u.position.distance_to e.coord ≤ e.cost) ∧
  (u.position ∈ visited ∨ (⟨u.position, 0, 0⟩ : PathNode) ∈ frontier) ∧
  (∀ c ∈ visited, u.position.distance_to c ≤ B ∧
      lookupN reachable c = some (B - u.position.distance_to c)) ∧
  (∀ c ∈ visited, ∀ n ∈ c.neighbors,
      u.position.distance_to n = u.position.distance_to c + 1 →
      u.position.distance_to n ≤ B →
      n ∈ visited ∨ ∃ k, (⟨n, k, k⟩ : PathNode) ∈ frontier ∧
        k ≤ u.position.distance_to c + 1) ∧
  (∀ kv ∈ reachable, kv.1 ∈ visited)

/-- Along any geodesic from the start, an unvisited in-budget hex always has
a frontier entry of priority at most its distance. -/
theorem reach_chain (u : Unit) (B : Nat) (frontier : List PathNode)
    (visited : List HexCoord)
    (hBv : u.position ∈ visited ∨ (⟨u.position, 0, 0⟩ : PathNode) ∈ frontier)
    (hD : ∀ c ∈ visited, ∀ n ∈ c.neighbors,
      u.position.distance_to n = u.position.distance_to c + 1 →
      u.position.distance_to n ≤ B →
      n ∈ visited ∨ ∃ k, (⟨n, k, k⟩ : PathNode) ∈ frontier ∧
        k ≤ u.position.distance_to c + 1) :
    ∀ (k : Nat) (c : HexCoord), u.position.distance_to c = k → k ≤ B →
      c ∈ visited ∨ ∃ e ∈ frontier, e.priority ≤ k := by
  intro k
  induction k using Nat.strong_induction_on with
  | _ k ih =>
    intro c hd hkB
    rcases Nat.eq_zero_or_pos k with hk0 | hkpos
    · subst hk0
      have hc : u.position = c := eq_of_distance_to_eq_zero hd
      rcases hBv with hv | he
      · exact Or.inl (hc ▸ hv)
      · exact Or.inr ⟨⟨u.position, 0, 0⟩, he, Nat.zero_le _⟩
    · obtain ⟨p, hpn, hstep⟩ := exists_step_toward u.position c (by omega)
      have hdp : u.position.distance_to p = k - 1 := by omega
      rcases ih (k - 1) (by omega) p hdp (by omega) with hv | ⟨e, he, hp⟩
      · have hDc := hD p hv c (mem_neighbors_symm hpn) (by omega) (by omega)
        rcases hDc with hcv | ⟨kk, hkk, hkkle⟩
        · exact Or.inl hcv
        · refine Or.inr ⟨⟨c, kk, kk⟩, hkk, ?_⟩
          show kk ≤ k
          omega
      · exact Or.inr ⟨e, he, by omega⟩

/-- `expandNeighbors` in terms of the fold lemmas: monotonicity. -/
theorem expandNeighbors_mono (s : GameState) (u : Unit) (budget : Nat)
    (current : PathNode) (visited : List HexCoord) (fr : List PathNode)
    (e : PathNode) (he : e ∈ fr) : e ∈ expandNeighbors s u budget current visited fr :=
  expandFold_mono s u budget current visited current.coord.neighbors fr e he

/-- `expandNeighbors` membership cases. -/
theorem expandNeighbors_mem (s : GameState) (u : Unit) (budget : Nat)
    (current : PathNode) (visited : List HexCoord) (fr : List PathNode)
    (e : PathNode) (he : e ∈ expandNeighbors s u budget current visited fr) :
    e ∈ fr ∨ ∃ n ∈ current.coord.neighbors, ∃ c0,
      movement_cost s.map current.coord n = some c0 ∧
      e = ⟨n, current.cost + c0, current.cost + c0⟩ ∧
      n ∉ visited ∧ can_pass_through s n u = true ∧ current.cost + c0 ≤ budget :=
  expandFold_mem s u budget current visited current.coord.neighbors fr e he

/-- `expandNeighbors` pushes every admissible neighbour. -/
theorem expandNeighbors_pushes (s : GameState) (u : Unit) (budget : Nat)
    (current : PathNode) (visited : List HexCoord) (fr : List PathNode)
    (n : HexCoord) (c0 : Nat) (hn : n ∈ current.coord.neighbors)
    (h1 : n ∉ visited) (h2 : can_pass_through s n u = true)
    (hmc : movement_cost s.map current.coord n = some c0)
    (h3 : current.cost + c0 ≤ budget) :
    (⟨n, current.cost + c0, current.cost + c0⟩ : PathNode) ∈
      expandNeighbors s u budget current visited fr :=
  expandFold_pushes s u budget current visited current.coord.neighbors fr n c0
    hn h1 h2 hmc h3

/-- `expandNeighbors` adds at most six nodes. -/
theorem expandNeighbors_length (s : GameState) (u : Unit) (budget : Nat)
    (current : PathNode) (visited : List HexCoord) (fr : List PathNode) :
    (expandNeighbors s u budget current visited fr).length ≤ fr.length + 6 :=
  expandFold_length s u budget current visited current.coord.neighbors fr

/-- Main correctness of the `find_reachable` loop in the all-Clear,
single-unit setting when the whole distance ball lies on the map: with the
invariant and enough fuel, the loop result records exactly the hexes within
budget, each with its exact remaining movement. -/
theorem reachLoop_correct (s : GameState) (u : Unit) (B : Nat)
    (hunits : s.units = [u])
    (hclear : ∀ kv ∈ s.map.tiles, kv.2.terrain = TerrainType.Clear)
    (hball : ∀ c : HexCoord, u.position.distance_to c ≤ B → s.map.is_valid c = true) :
    ∀ (fuel : Nat) (frontier : List PathNode) (visited : List HexCoord)
      (reachable : List (HexCoord × Nat)),
      ReachInv u B frontier visited reachable →
      frontier.length + 7 * ((ballF u.position B) \ visited.toFinset).card < fuel →
      (∀ c, lookupN (reachLoop s u B fuel frontier visited reachable) c =
          if u.position.distance_to c ≤ B
          then some (B - u.position.distance_to c) else none) ∧
      (∀ kv ∈ reachLoop s u B fuel frontier visited reachable,
          u.position.distance_to kv.1 ≤ B) := by
  intro fuel
  induction fuel with
  | zero =>
    intro frontier visited reachable _ hm
    exact absurd hm (by omega)
  | succ fuel ih =>
    intro frontier visited reachable hinv hm
    obtain ⟨hA, hBv, hC, hD, hE⟩ := hinv
    rcases hpop : heapPop frontier with _ | ⟨current, rest⟩
    · -- the frontier is empty: the search is complete
      have hfr : frontier = [] := heapPop_none.mp hpop
      subst hfr
      have hres : reachLoop s u B (fuel + 1) [] visited reachable = reachable := by
        rw [reachLoop, hpop]
      rw [hres]
      have hvisited : ∀ (k : Nat) (c : HexCoord),
          u.position.distance_to c = k → k ≤ B → c ∈ visited := by
        intro k c hd hk
        rcases reach_chain u B [] visited hBv hD k c hd hk with hv | ⟨e, he, _⟩
        · exact hv
        · simp at he
      constructor
      · intro c
        by_cases hcb : u.position.distance_to c ≤ B
        · rw [if_pos hcb]
          exact (hC c (hvisited _ c rfl hcb)).2
        · rw [if_neg hcb]
          rcases hl : lookupN reachable c with _ | v
          · rfl
          · exact absurd (hC c (hE _ (lookupN_some_mem hl))).1 hcb
      · intro kv hkv
        exact (hC kv.1 (hE kv hkv)).1
    · by_cases hvis : current.coord ∈ visited
      · -- stale queue entry: skip it
        have hres : reachLoop s u B (fuel + 1) frontier visited reachable =
            reachLoop s u B fuel rest visited reachable := by
          rw [reachLoop, hpop]
          exact if_pos hvis
        rw [hres]
        have hlen := heapPop_length hpop
        refine ih rest visited reachable ⟨?_, ?_, hC, ?_, hE⟩ (by omega)
        · intro e he
          exact hA e (heapPop_rest_subset hpop he)
        · rcases hBv with hv | he
          · exact Or.inl hv
          · rcases mem_of_heapPop hpop he with hcur | hrest
            · left
              have hcc : u.position = current.coord := congrArg PathNode.coord hcur
              rw [hcc]
              exact hvis
            · exact Or.inr hrest
        · intro c hc n hn hdn hnB
          rcases hD c hc n hn hdn hnB with hv | ⟨k, hk, hkle⟩
          · exact Or.inl hv
          · rcases mem_of_heapPop hpop hk with hcur | hrest
            · left
              have hcc : n = current.coord := congrArg PathNode.coord hcur
              rw [hcc]
              exact hvis
            · exact Or.inr ⟨k, hrest, hkle⟩
      · -- fresh coordinate: it is visited with optimal cost
        obtain ⟨hcur_mem, _, hmin⟩ := heapPop_some hpop
        obtain ⟨hpri, hcostB, hdist_le⟩ := hA current hcur_mem
        have hopt : current.cost = u.position.distance_to current.coord := by
          rcases reach_chain u B frontier visited hBv hD
              (u.position.distance_to current.coord) current.coord rfl
              (le_trans hdist_le hcostB) with hv | ⟨e, he, hep⟩
          · exact absurd hv hvis
          · have h1 := hmin e he
            omega
        have hdcurB : u.position.distance_to current.coord ≤ B :=
          le_trans hdist_le hcostB
        have hres : reachLoop s u B (fuel + 1) frontier visited reachable =
            reachLoop s u B fuel
              (expandNeighbors s u B current (current.coord :: visited) rest)
              (current.coord :: visited)
              (insertN reachable current.coord (B - current.cost)) := by
          rw [reachLoop, hpop]
          exact if_neg hvis
        rw [hres]
        have hlen := heapPop_length hpop
        have hexp := expandNeighbors_length s u B current (current.coord :: visited) rest
        have hmem_ball : current.coord ∈ ballF u.position B \ visited.toFinset := by
          rw [Finset.mem_sdiff, mem_ballF]
          exact ⟨hdcurB, fun hh => hvis (List.mem_toFinset.mp hh)⟩
        have hcard : ((ballF u.position B) \ (current.coord :: visited).toFinset).card
            = ((ballF u.position B) \ visited.toFinset).card - 1 := by
          rw [List.toFinset_cons, Finset.sdiff_insert,
            Finset.card_erase_of_mem hmem_ball]
        have hcardpos : 0 < ((ballF u.position B) \ visited.toFinset).card :=
          Finset.card_pos.mpr ⟨current.coord, hmem_ball⟩
        refine ih _ _ _ ⟨?_, ?_, ?_, ?_, ?_⟩ (by omega)
        · -- frontier soundness
          intro e he
          rcases expandNeighbors_mem s u B current (current.coord :: visited) rest e he
            with hr | ⟨n, hn, c0, hmc, heq, hnv, hcp, hcb⟩
          · exact hA e (heapPop_rest_subset hpop hr)
          · have hvalid : s.map.is_valid n = true := by
              rw [← pass_iff_valid hunits hclear n]
              exact hcp
            have hc01 : c0 = 1 := by
              have hone := cost_one hclear hvalid current.coord
              rw [hmc] at hone
              injection hone with h'
            subst hc01
            subst heq
            refine ⟨rfl, hcb, ?_⟩
            have htri := distance_to_triangle u.position current.coord n
            have hadj : current.coord.distance_to n = 1 :=
              (mem_neighbors_iff_distance current.coord n).mp hn
            show u.position.distance_to n ≤ current.cost + 1
            omega
        · -- the start stays covered
          rcases hBv with hv | he
          · exact Or.inl (List.mem_cons_of_mem _ hv)
          · rcases mem_of_heapPop hpop he with hcur | hrest
            · left
              have hcc : u.position = current.coord := congrArg PathNode.coord hcur
              rw [hcc]
              exact List.mem_cons_self _ _
            · exact Or.inr (expandNeighbors_mono s u B current
                (current.coord :: visited) rest _ hrest)
        · -- visited soundness
          intro c hc
          rcases List.mem_cons.mp hc with hceq | hcv
          · subst hceq
            refine ⟨hdcurB, ?_⟩
            rw [lookupN_insertN, if_pos rfl, hopt]
          · have hne : c ≠ current.coord := fun hh => hvis (hh ▸ hcv)
            refine ⟨(hC c hcv).1, ?_⟩
            rw [lookupN_insertN, if_neg hne]
            exact (hC c hcv).2
        · -- boundary coverage
          intro c hc n hn hdn hnB
          rcases List.mem_cons.mp hc with hceq | hcv
          · subst hceq
            by_cases hnv : n ∈ current.coord :: visited
            · exact Or.inl hnv
            · right
              have hvalidn : s.map.is_valid n = true := hball n hnB
              have hcp : can_pass_through s n u = true := by
                rw [pass_iff_valid hunits hclear n]
                exact hvalidn
              have hmc : movement_cost s.map current.coord n = some 1 :=
                cost_one hclear hvalidn current.coord
              have hble : current.cost + 1 ≤ B := by omega
              exact ⟨current.cost + 1,
                expandNeighbors_pushes s u B current (current.coord :: visited) rest
                  n 1 hn hnv hcp hmc hble,
                by omega⟩
          · rcases hD c hcv n hn hdn hnB with hv | ⟨k, hk, hkle⟩
            · exact Or.inl (List.mem_cons_of_mem _ hv)
            · rcases mem_of_heapPop hpop hk with hcur | hrest
              · left
                have hcc : n = current.coord := congrArg PathNode.coord hcur
                rw [hcc]
                exact List.mem_cons_self _ _
              · exact Or.inr ⟨k, expandNeighbors_mono s u B current
                  (current.coord :: visited) rest _ hrest, hkle⟩
        · -- recorded keys are visited
          intro kv hkv
          rcases mem_insertN hkv with hkv1 | hkv2
          · rw [hkv1]
            exact List.mem_cons_self _ _
          · exact List.mem_cons_of_mem _ (hE kv hkv2)

/-- The ball fits on the map when all its hexes are valid. -/
theorem ballF_card_le (s : GameState) (u : Unit) (B : Nat)
    (hball : ∀ c : HexCoord, u.position.distance_to c ≤ B → s.map.is_valid c = true) :
    (ballF u.position B).card ≤ s.map.tiles.length := by
  have hsub : ballF u.position B ⊆
      (s.map.tiles.map (fun kv => HexCoord.mk kv.1.1 kv.1.2)).toFinset := by
    intro c hc
    have hv := hball c (mem_ballF.mp hc)
    rw [GameMap.is_valid, Option.isSome_iff_exists] at hv
    obtain ⟨t, ht⟩ := hv
    rw [List.mem_toFinset]
    exact List.mem_map.mpr ⟨((c.q, c.r), t), lookupTile_mem ht, rfl⟩
  calc (ballF u.position B).card
      ≤ ((s.map.tiles.map (fun kv => HexCoord.mk kv.1.1 kv.1.2)).toFinset).card :=
        Finset.card_le_card hsub
    _ ≤ (s.map.tiles.map (fun kv => HexCoord.mk kv.1.1 kv.1.2)).length :=
        (s.map.tiles.map (fun kv => HexCoord.mk kv.1.1 kv.1.2)).toFinset_card_le
    _ = s.map.tiles.length := List.length_map _ _

/-- Every facing-neighbour is at hex distance 1. -/
theorem distance_to_neighbor (c : HexCoord) (f : Facing) :
    c.distance_to (c.neighbor f) = 1 := by
  cases f <;>
    simp only [HexCoord.distance_to, HexCoord.to_cube, HexCoord.neighbor,
      AXIAL_DIRECTIONS, Facing.index, List.getD, List.get?, Option.getD] <;>
    omega

/-- `rustTruncR` on a non-negative value is the floor. -/
theorem rustTruncR_nonneg (x : ℝ) (h : 0 ≤ x) : rustTruncR x = ⌊x⌋ := by
  rw [rustTruncR, if_pos h]

/-- Evaluation of `direction_to` on the Northeast primitive offset: the code
treats the axial delta `(dq, dr) = (1, -1)` as Cartesian coordinates, gets
the angle `-π/4`, and lands in the Southeast sector. -/
theorem direction_to_ne_offset :
    HexCoord.direction_to HexCoord.origin ⟨1, -1⟩ = some .Southeast := by
  have hpi : (Real.pi : ℝ) ≠ 0 := Real.pi_ne_zero
  have hne : HexCoord.origin ≠ (⟨1, -1⟩ : HexCoord) := by decide
  rw [HexCoord.direction_to, if_neg hne]
  norm_num [HexCoord.origin]
  have hatan : atan2R (-1 : ℝ) (1 : ℝ) = -(Real.pi / 4) := by
    rw [atan2R, if_pos (by norm_num)]
    norm_num [Real.arctan_neg, Real.arctan_one]
  rw [hatan]
  have hdiv : (-(Real.pi / 4) + 2 * Real.pi) / (2 * Real.pi) = 7 / 8 := by
    field_simp
    ring
  have hrem : rustRemR (-(Real.pi / 4) + 2 * Real.pi) (2 * Real.pi) =
      -(Real.pi / 4) + 2 * Real.pi := by
    rw [rustRemR, hdiv, rustTruncR_nonneg _ (by norm_num)]
    norm_num [Int.floor_eq_zero_iff]
  rw [hrem]
  have hidx : (-(Real.pi / 4) + 2 * Real.pi) / (Real.pi / 3) + 1 / 2 = 23 / 4 := by
    field_simp
    ring
  rw [hidx]
  have htr : rustTruncR ((23 : ℝ) / 4) = 5 := by
    rw [rustTruncR_nonneg _ (by norm_num)]
    norm_num [Int.floor_eq_iff]
  rw [htr]
  rfl

/-! ## Claims -/

/-- C5 (code bug): every facing-neighbour is at distance 1 as claimed, but
`direction_to` is *not* the inverse of `neighbor`: at the failing input
`c = (0,0)`, `f = Northeast` the neighbour is `(1,-1)` and `direction_to`
returns `Some(Southeast)` instead of `Some(Northeast)` — the code feeds the
raw axial delta to `atan2` as if it were Cartesian. -/
theorem c5_direction_to_not_inverse_of_neighbor :
    (∀ (c : HexCoord) (f : Facing), c.distance_to (c.neighbor f) = 1) ∧
    HexCoord.origin.neighbor .Northeast = ⟨1, -1⟩ ∧
    HexCoord.direction_to HexCoord.origin (HexCoord.origin.neighbor .Northeast) =
      some .Southeast ∧
    some Facing.Southeast ≠ some Facing.Northeast := by
  refine ⟨distance_to_neighbor, by decide, ?_, by decide⟩
  have h : HexCoord.origin.neighbor .Northeast = (⟨1, -1⟩ : HexCoord) := by decide
  rw [h]
  exact direction_to_ne_offset

/-- C6 counterexample: at `(q, r) = (1/2, 1/2)` the `q` and `r` rounding
errors tie at `1/2` (the `s` error is `0`), and the code fixes `r` — giving
`(1, 0)` — whereas fixing `x` first, as the claim states, would give
`(0, 1)`. -/
theorem c6_tie_break_counterexample :
    |((rustRound (1/2 : ℚ) : ℚ)) - 1/2| = 1/2 ∧
    |((rustRound (-(1/2 : ℚ) - 1/2) : ℚ)) - (-(1/2 : ℚ) - 1/2)| = 0 ∧
    hex_round (1/2) (1/2) = ⟨1, 0⟩ ∧
    hexRoundSpecTieX (1/2) (1/2) = ⟨0, 1⟩ ∧
    (⟨1, 0⟩ : HexCoord) ≠ ⟨0, 1⟩ := by
  have hce : ⌈(-(3/2) : ℚ)⌉ = -1 := by
    rw [Int.ceil_eq_iff]
    norm_num
  refine ⟨by norm_num [rustRound], by norm_num [rustRound, hce], ?_, ?_, by decide⟩
  · norm_num [hex_round, rustRound, hce]
  · norm_num [hexRoundSpecTieX, rustRound, hce]

/-- C6 (amended): `hex_round` rounds each cube component independently and
recomputes the component with the largest rounding error from the other two,
resolving ties by preferring to fix `z` over `y` over `x` (`x` is corrected
only when its error is strictly largest) — the standard cube-rounding
algorithm. -/
theorem c6_hex_round_fixes_largest_tie_z (q r : ℚ) :
    hex_round q r = hexRoundSpecTieZ q r := by
  simp only [hex_round, hexRoundSpecTieZ]
  split_ifs <;> try rfl
  all_goals exfalso
  all_goals simp only [not_and_or, not_lt, not_le, ge_iff_le, gt_iff_lt] at *
  all_goals casesm* _ ∨ _, _ ∧ _
  all_goals linarith

/-- C1: whenever `process_command` returns an error, the `GameState` it
leaves behind is exactly the input state — map, units, turn, phase, active
player, game-over flag, winner, selected unit and the event log included. -/
theorem c1_error_leaves_state_unchanged (s : GameState) (c : Command) (e : String)
    (h : (s.process_command c).2 = .error e) : (s.process_command c).1 = s := by
  cases c with
  | Move uid path f =>
    revert h
    simp only [GameState.process_command]
    repeat' split
    all_goals intro h
    all_goals first | rfl | exact absurd h (by simp)
  | EndPhase => revert h; unfold GameState.process_command; intro h; exact absurd h (by simp)
  | EndTurn => revert h; unfold GameState.process_command; intro h; exact absurd h (by simp)

/-- C1 witness: a `Move` issued in the Deployment phase errors and leaves the
fresh state untouched. -/
theorem c1_error_leaves_state_unchanged_witness :
    ((GameState.new (GameMap.new 3 3)).process_command
        (.Move 1 [⟨1, 0⟩] .East)).1 = GameState.new (GameMap.new 3 3) :=
  c1_error_leaves_state_unchanged (GameState.new (GameMap.new 3 3))
    (.Move 1 [⟨1, 0⟩] .East) "Cannot move outside of movement phase" (by rfl)

/-- C2: in the Movement phase, a `Move` for an existing, active-player-owned
unit that has not moved yet, along a non-empty path whose endpoint is a valid
coordinate and unoccupied (or the unit's own start), succeeds: afterwards the
unit sits at the endpoint with the supplied facing, `has_moved` set and
`movement_remaining` zeroed, and the returned events are exactly one
`UnitMoved` with the start, endpoint and final facing. -/
theorem c2_move_success (s : GameState) (uid : Nat) (path : List HexCoord) (f : Facing)
    (u : Unit) (endc : HexCoord)
    (hphase : s.current_phase = .Movement)
    (hget : s.get_unit uid = some u)
    (howner : u.owner = s.active_player)
    (hmoved : u.has_moved = false)
    (hlast : path.getLast? = some endc)
    (hvalid : s.map.is_valid endc = true)
    (hocc : s.unit_at endc = none ∨ endc = u.position) :
    (s.process_command (.Move uid path f)).2 =
      .ok [GameEvent.UnitMoved uid u.position endc f] ∧
    ((s.process_command (.Move uid path f)).1).get_unit uid =
      some { u with position := endc, facing := f,
                    has_moved := true, movement_remaining := 0 } := by
  have hcond : ¬((s.unit_at endc).isSome = true ∧ endc ≠ u.position) := by
    rcases hocc with h | h
    · simp [h]
    · simp [h]
  have hred : s.process_command (.Move uid path f) =
      ({ s with
          units := update_first (fun v => v.id == uid)
            (fun v => { v with position := endc, facing := f,
                               has_moved := true, movement_remaining := 0 }) s.units
          events := s.events ++ [GameEvent.UnitMoved uid u.position endc f] },
       .ok [GameEvent.UnitMoved uid u.position endc f]) := by
    simp only [GameState.process_command, hget, hlast]
    rw [if_neg (show ¬(s.current_phase ≠ Phase.Movement) by simp [hphase])]
    rw [if_neg (show ¬(u.owner ≠ s.active_player) by simp [howner])]
    rw [hmoved]
    rw [if_neg (show ¬(false = true) by simp)]
    rw [if_neg (show ¬(¬s.map.is_valid endc = true) by simp [hvalid])]
    rw [if_neg hcond]
  rw [hred]
  refine ⟨rfl, ?_⟩
  exact find?_update_first s.units uid u
    (fun v => { v with position := endc, facing := f,
                       has_moved := true, movement_remaining := 0 }) rfl hget

/-- C2 witness: a concrete one-step move on a fresh 3×3 map. -/
theorem c2_move_success_witness :
    (({ GameState.new (GameMap.new 3 3) with
        current_phase := .Movement
        units := [Unit.new 1 .Shadowsword .Player1 ⟨0, 0⟩ .East] }).process_command
          (.Move 1 [⟨1, 0⟩] .Northeast)).2 =
      .ok [GameEvent.UnitMoved 1 ⟨0, 0⟩ ⟨1, 0⟩ .Northeast] ∧
    ((({ GameState.new (GameMap.new 3 3) with
        current_phase := .Movement
        units := [Unit.new 1 .Shadowsword .Player1 ⟨0, 0⟩ .East] }).process_command
          (.Move 1 [⟨1, 0⟩] .Northeast)).1).get_unit 1 =
      some { Unit.new 1 .Shadowsword .Player1 ⟨0, 0⟩ .East with
              position := ⟨1, 0⟩
              facing := .Northeast
              has_moved := true
              movement_remaining := 0 } :=
  c2_move_success _ 1 [⟨1, 0⟩] .Northeast
    (Unit.new 1 .Shadowsword .Player1 ⟨0, 0⟩ .East) ⟨1, 0⟩
    rfl (by rfl) rfl rfl rfl (by rfl) (Or.inl (by rfl))

/-- C3: `EndTurn` succeeds from any phase; afterwards the turn is incremented,
the phase is `Movement`, the active player is flipped, every unit is reset
(full movement budget, `has_moved`/`has_attacked` cleared), and the returned
events are `PhaseChanged(old → Movement)` then `TurnChanged(new turn)`. -/
theorem c3_end_turn_resets (s : GameState) :
    (s.process_command .EndTurn).2 =
      .ok [GameEvent.PhaseChanged s.current_phase .Movement,
           GameEvent.TurnChanged (s.current_turn + 1)] ∧
    ((s.process_command .EndTurn).1).current_turn = s.current_turn + 1 ∧
    ((s.process_command .EndTurn).1).current_phase = .Movement ∧
    ((s.process_command .EndTurn).1).active_player = s.active_player.opponent ∧
    ∀ v ∈ ((s.process_command .EndTurn).1).units,
      v.movement_remaining = v.unit_type.base_movement ∧
      v.has_moved = false ∧ v.has_attacked = false := by
  refine ⟨rfl, rfl, rfl, rfl, ?_⟩
  intro v hv
  simp only [GameState.process_command, GameState.end_turn, List.mem_map] at hv
  obtain ⟨w, _, rfl⟩ := hv
  exact ⟨rfl, rfl, rfl⟩

/-- C4: `EndPhase` from Deployment or Movement only advances the phase and
appends a single `PhaseChanged` event; from Combat it performs the full
turn-end transition (turn +1, active player flipped, every unit reset, phase
back to `Movement`). -/
theorem c4_end_phase_frame (s : GameState) :
    ((s.current_phase = .Deployment ∨ s.current_phase = .Movement) →
      s.process_command .EndPhase =
        ({ s with current_phase := s.current_phase.next,
                  events := s.events ++
                    [GameEvent.PhaseChanged s.current_phase s.current_phase.next] },
         .ok [GameEvent.PhaseChanged s.current_phase s.current_phase.next])) ∧
    (s.current_phase = .Combat →
      s.process_command .EndPhase =
        ({ s with current_turn := s.current_turn + 1,
                  current_phase := .Movement,
                  active_player := s.active_player.opponent,
                  units := s.units.map Unit.reset_for_turn,
                  events := s.events ++
                    [GameEvent.TurnChanged (s.current_turn + 1),
                     GameEvent.PhaseChanged .Combat .Movement] },
         .ok [GameEvent.TurnChanged (s.current_turn + 1),
              GameEvent.PhaseChanged .Combat .Movement])) := by
  constructor
  · rintro (hp | hp) <;>
      simp [GameState.process_command, GameState.end_turn, Phase.next, hp]
  · intro hp
    simp [GameState.process_command, GameState.end_turn, Phase.next, hp]

/-- C4 witness: instantiate both branches on concrete states. -/
theorem c4_end_phase_frame_witness :
    ((GameState.new (GameMap.new 2 2)).process_command .EndPhase =
      ({ GameState.new (GameMap.new 2 2) with
          current_phase := .Movement
          events := [GameEvent.PhaseChanged .Deployment .Movement] },
       .ok [GameEvent.PhaseChanged .Deployment .Movement])) ∧
    (({ GameState.new (GameMap.new 2 2) with current_phase := .Combat }).process_command
        .EndPhase =
      ({ GameState.new (GameMap.new 2 2) with
          current_turn := 2
          current_phase := .Movement
          active_player := .Player2
          events := [GameEvent.TurnChanged 2,
                     GameEvent.PhaseChanged .Combat .Movement] },
       .ok [GameEvent.TurnChanged 2, GameEvent.PhaseChanged .Combat .Movement])) := by
  constructor
  · have h := (c4_end_phase_frame (GameState.new (GameMap.new 2 2))).1 (Or.inl rfl)
    simpa using h
  · have h := (c4_end_phase_frame
      ({ GameState.new (GameMap.new 2 2) with current_phase := .Combat })).2 rfl
    simpa using h

/-- C7 counterexample: on a 1×1 all-Clear map containing only the moving
unit (budget 5), the hex `(1,0)` is within distance 5 of the start but is
not a key of `find_reachable` — the claim's "exactly the set of hexes within
hex-distance B" fails on a finite map. -/
theorem c7_finite_map_counterexample :
    (∀ kv ∈ (GameMap.new 1 1).tiles, kv.2.terrain = TerrainType.Clear) ∧
    HexCoord.distance_to ⟨0, 0⟩ ⟨1, 0⟩ ≤
      (Unit.new 1 .Shadowsword .Player1 ⟨0, 0⟩ .East).effective_movement ∧
    lookupN
      (find_reachable
        ({ GameState.new (GameMap.new 1 1) with
            units := [Unit.new 1 .Shadowsword .Player1 ⟨0, 0⟩ .East] })
        (Unit.new 1 .Shadowsword .Player1 ⟨0, 0⟩ .East)) ⟨1, 0⟩ = none := by
  refine ⟨by decide, by decide, by decide⟩

/-- C7 (amended): on an all-Clear map containing only the moving unit, and
whose valid coordinate set contains the whole distance-`B` ball around the
unit (`B` = its movement budget), `find_reachable` maps exactly the hexes
within distance `B` of the start, each to `B` minus its distance. -/
theorem c7_reachable_is_distance_ball (s : GameState) (u : Unit)
    (hunits : s.units = [u])
    (hclear : ∀ kv ∈ s.map.tiles, kv.2.terrain = TerrainType.Clear)
    (hball : ∀ c : HexCoord, u.position.distance_to c ≤ u.effective_movement →
      s.map.is_valid c = true) :
    ∀ c : HexCoord, lookupN (find_reachable s u) c =
      if u.position.distance_to c ≤ u.effective_movement
      then some (u.effective_movement - u.position.distance_to c) else none := by
  intro c
  have hini : ReachInv u u.effective_movement
      [⟨u.position, 0, 0⟩] [] [] := by
    refine ⟨?_, Or.inr (List.mem_singleton.mpr rfl), ?_, ?_, ?_⟩
    · intro e he
      rw [List.mem_singleton] at he
      subst he
      exact ⟨rfl, Nat.zero_le _, le_of_eq (distance_to_self _)⟩
    · intro c hc
      simp at hc
    · intro c hc
      simp at hc
    · intro kv hkv
      simp at hkv
  have hcard := ballF_card_le s u u.effective_movement hball
  have hmeasure :
      ([(⟨u.position, 0, 0⟩ : PathNode)]).length +
        7 * ((ballF u.position u.effective_movement) \
          ([] : List HexCoord).toFinset).card <
      7 * (s.map.tiles.length + 1) := by
    simp only [List.length_singleton, List.toFinset_nil, Finset.sdiff_empty]
    omega
  obtain ⟨hpost, hmem⟩ := reachLoop_correct s u u.effective_movement hunits hclear hball
    (7 * (s.map.tiles.length + 1)) [⟨u.position, 0, 0⟩] [] [] hini hmeasure
  have hfr : find_reachable s u =
      (reachLoop s u u.effective_movement (7 * (s.map.tiles.length + 1))
        [⟨u.position, 0, 0⟩] [] []).filter
        (fun p => !is_blocked s p.1 u.id || decide (p.1 = u.position)) := rfl
  have hfil : (reachLoop s u u.effective_movement (7 * (s.map.tiles.length + 1))
        [⟨u.position, 0, 0⟩] [] []).filter
        (fun p => !is_blocked s p.1 u.id || decide (p.1 = u.position)) =
      reachLoop s u u.effective_movement (7 * (s.map.tiles.length + 1))
        [⟨u.position, 0, 0⟩] [] [] := by
    apply List.filter_eq_self.mpr
    intro kv hkv
    have hvb := hmem kv hkv
    have hnb := not_blocked_of_valid hunits hclear (hball _ hvb)
    simp [hnb]
  rw [hfr, hfil]
  exact hpost c

/-- C7 witness: a budget-1 unit at the centre of a 3×3 map; its reachable
set is the 7-hex ball, with correct remaining movement. -/
theorem c7_reachable_is_distance_ball_witness :
    lookupN (find_reachable
      ({ GameState.new (GameMap.new 3 3) with
          units := [{ Unit.new 1 .Shadowsword .Player1 ⟨1, 1⟩ .East with
                        movement_remaining := 1 }] })
      ({ Unit.new 1 .Shadowsword .Player1 ⟨1, 1⟩ .East with
          movement_remaining := 1 })) ⟨1, 1⟩ = some 1 ∧
    lookupN (find_reachable
      ({ GameState.new (GameMap.new 3 3) with
          units := [{ Unit.new 1 .Shadowsword .Player1 ⟨1, 1⟩ .East with
                        movement_remaining := 1 }] })
      ({ Unit.new 1 .Shadowsword .Player1 ⟨1, 1⟩ .East with
          movement_remaining := 1 })) ⟨2, 1⟩ = some 0 ∧
    lookupN (find_reachable
      ({ GameState.new (GameMap.new 3 3) with
          units := [{ Unit.new 1 .Shadowsword .Player1 ⟨1, 1⟩ .East with
                        movement_remaining := 1 }] })
      ({ Unit.new 1 .Shadowsword .Player1 ⟨1, 1⟩ .East with
          movement_remaining := 1 })) ⟨3, 1⟩ = none := by
  have hball : ∀ c : HexCoord,
      HexCoord.distance_to ⟨1, 1⟩ c ≤ 1 →
      (GameMap.new 3 3).is_valid c = true := by
    intro c hc
    rw [distance_to_def] at hc
    obtain ⟨q, r⟩ := c
    simp only at hc
    have hq1 : 0 ≤ q := by omega
    have hq2 : q ≤ 2 := by omega
    have hr1 : 0 ≤ r := by omega
    have hr2 : r ≤ 2 := by omega
    interval_cases q <;> interval_cases r <;> first | decide | (exfalso; omega)
  have h := c7_reachable_is_distance_ball
    ({ GameState.new (GameMap.new 3 3) with
        units := [{ Unit.new 1 .Shadowsword .Player1 ⟨1, 1⟩ .East with
                      movement_remaining := 1 }] })
    ({ Unit.new 1 .Shadowsword .Player1 ⟨1, 1⟩ .East with
        movement_remaining := 1 })
    rfl (by decide) hball
  refine ⟨?_, ?_, ?_⟩
  · rw [h ⟨1, 1⟩]
    decide
  · rw [h ⟨2, 1⟩]
    decide
  · rw [h ⟨3, 1⟩]
    decide

/-- C8 counterexample: when the target *is* the unit's own position but the
stopping predicate fails there (an enemy shares the hex — nothing prevents
two units from occupying one hex), `find_path` still returns the trivial
path: the claim's "target failing the stopping predicate returns None" is
false as stated. -/
theorem c8_blocked_target_counterexample :
    is_blocked
      ({ GameState.new (GameMap.new 2 2) with
          units := [Unit.new 2 .Shadowsword .Player2 ⟨0, 0⟩ .East,
                    Unit.new 1 .Shadowsword .Player1 ⟨0, 0⟩ .East] })
      ⟨0, 0⟩ 1 = true ∧
    find_path
      ({ GameState.new (GameMap.new 2 2) with
          units := [Unit.new 2 .Shadowsword .Player2 ⟨0, 0⟩ .East,
                    Unit.new 1 .Shadowsword .Player1 ⟨0, 0⟩ .East] })
      (Unit.new 1 .Shadowsword .Player1 ⟨0, 0⟩ .East) ⟨0, 0⟩ none ≠ none := by
  constructor
  · decide
  · decide

/-- C8 (amended): `find_path` to the unit's own position returns the trivial
single-hex zero-cost path, and — *unless* the target equals the unit's
position — a target failing the stopping predicate (occupied by another
living unit, invalid, or impassable) returns `None` before any search. -/
theorem c8_find_path_early_returns :
    (∀ (s : GameState) (u : Unit) (mc : Option Nat),
      find_path s u u.position mc = some ([u.position], 0)) ∧
    (∀ (s : GameState) (u : Unit) (t : HexCoord) (mc : Option Nat),
      t ≠ u.position → is_blocked s t u.id = true → find_path s u t mc = none) := by
  constructor
  · intro s u mc
    simp [find_path]
  · intro s u t mc ht hb
    simp only [find_path]
    rw [if_neg (fun h => ht h.symm), if_pos hb]

/-- C8 witness: the trivial path on a concrete state, and `None` for an
off-map target. -/
theorem c8_find_path_early_returns_witness :
    find_path ({ GameState.new (GameMap.new 2 2) with
        units := [Unit.new 1 .Shadowsword .Player1 ⟨0, 0⟩ .East] })
      (Unit.new 1 .Shadowsword .Player1 ⟨0, 0⟩ .East) ⟨0, 0⟩ none =
      some ([⟨0, 0⟩], 0) ∧
    find_path ({ GameState.new (GameMap.new 2 2) with
        units := [Unit.new 1 .Shadowsword .Player1 ⟨0, 0⟩ .East] })
      (Unit.new 1 .Shadowsword .Player1 ⟨0, 0⟩ .East) ⟨5, 5⟩ none = none :=
  ⟨c8_find_path_early_returns.1 _ _ none,
   c8_find_path_early_returns.2 _ _ ⟨5, 5⟩ none (by decide) (by decide)⟩

/-- C9: `check_victory` marks the game over with the surviving player as
winner exactly when one side has no living units and the other has at least
one; in every other situation (including a double wipe) the state is left
unchanged — in particular no winner is set. -/
theorem c9_check_victory (s : GameState) :
    (((s.player_units .Player1).length = 0 ∧ (s.player_units .Player2).length > 0 →
      s.check_victory = { s with game_over := true, winner := some .Player2 }) ∧
     ((s.player_units .Player2).length = 0 ∧ (s.player_units .Player1).length > 0 →
      s.check_victory = { s with game_over := true, winner := some .Player1 })) ∧
    (((s.player_units .Player1).length = 0 ∧ (s.player_units .Player2).length = 0) ∨
     ((s.player_units .Player1).length > 0 ∧ (s.player_units .Player2).length > 0) →
      s.check_victory = s) := by
  refine ⟨⟨?_, ?_⟩, ?_⟩
  · intro h
    simp [GameState.check_victory, h.1, h.2]
  · intro h
    rw [GameState.check_victory]
    rw [if_neg (by omega), if_pos (by omega)]
  · rintro (⟨h1, h2⟩ | ⟨h1, h2⟩) <;> rw [GameState.check_victory]
    · rw [if_neg (by omega), if_neg (by omega)]
    · rw [if_neg (by omega), if_neg (by omega)]

/-- C9 witness: a one-sided wipe and a double wipe, on concrete states. -/
theorem c9_check_victory_witness :
    (({ GameState.new (GameMap.new 2 2) with
        units := [Unit.new 1 .Shadowsword .Player2 ⟨0, 0⟩ .East] }).check_victory =
      { GameState.new (GameMap.new 2 2) with
        units := [Unit.new 1 .Shadowsword .Player2 ⟨0, 0⟩ .East]
        game_over := true
        winner := some .Player2 }) ∧
    ((GameState.new (GameMap.new 2 2)).check_victory = GameState.new (GameMap.new 2 2)) := by
  constructor
  · have h := (c9_check_victory
      ({ GameState.new (GameMap.new 2 2) with
         units := [Unit.new 1 .Shadowsword .Player2 ⟨0, 0⟩ .East] })).1.1
      (by constructor <;> decide)
    simpa using h
  · have h := (c9_check_victory (GameState.new (GameMap.new 2 2))).2
      (Or.inl (by constructor <;> decide))
    simpa using h

/-- C10: starting from `GameState::new` (phase `Deployment`) and applying any
sequence of `process_command` / `add_unit` / `select_unit` / `check_victory`
calls, the observable phase is never `End`: the `End` phase is transient. -/
theorem c10_phase_never_end (m : GameMap) (ops : List Op) :
    (run_ops (GameState.new m) ops).current_phase ≠ .End := by
  have step : ∀ (s : GameState) (op : Op), s.current_phase ≠ .End →
      (apply_op s op).current_phase ≠ .End := by
    intro s op h
    cases op with
    | cmd c => exact process_command_phase_ne_end s c h
    | add u => exact h
    | select o => exact h
    | victory => rw [apply_op, check_victory_phase]; exact h
  have main : ∀ (ops : List Op) (s : GameState), s.current_phase ≠ .End →
      (run_ops s ops).current_phase ≠ .End := by
    intro ops
    induction ops with
    | nil => intro s h; exact h
    | cons op rest ih =>
      intro s h
      exact ih (apply_op s op) (step s op h)
  exact main ops (GameState.new m) (by simp [GameState.new])

end TitanHunt
